import Mathlib

/-!
Verification development for the zipfs repository (Go).

The repository appends named resource collections (zip archives) to an
executable file and locates them again at run time by walking a backward
chain of 8-byte trailers.  Files are modelled as lists of bytes
(`List Nat`); all functions below are shallow embeddings of the Go source:

  * `appendZipData`, `hasZipData`, `excludedOpt`  — from zipfs.go (the
    command that appends collections; the variant with exclusion
    patterns, whose line numbers the claims reference),
  * `openZipFileF`, `chainStep`, `chainWalkF`, `offsetReaderReadAt`,
    `zipFSOpen` — from zipfs/zipfs.go (the runtime library).

The zip archive codec itself (Go archive/zip) is outside this repository;
per the specification it is an external capability ("archive writer /
archive reader").  It is modelled by the concrete invertible codec
`zipEncode` / `zipDecode` below.

The chain-walk loop of `openZipFile` is not structurally terminating on
arbitrary file contents (crafted offset cycles make it loop forever), so
it is embedded with explicit fuel: `chainWalkF`/`openZipFileF` return
`none` when the fuel runs out and `some r` when the loop finishes with
result `r` (where `r = none` models the Go function returning nil).
-/

/-- The 4 ASCII bytes of the tag constant written after every block:
Z = 0x5A, I = 0x49, P = 0x50, R = 0x52. -/
def ziprTag : List Nat := [90, 73, 80, 82]

/-- Reading `n` bytes of a file at offset `off` (the bytes that exist;
callers model Go short-read/EOF behaviour on top of this). -/
def readBytes (file : List Nat) (off n : Nat) : List Nat :=
  (file.drop off).take n

/-- Big-endian interpretation of a byte list as an unsigned number. -/
def bytesToNatBE (bs : List Nat) : Nat :=
  bs.foldl (fun a b => a * 256 + b) 0

/-- The 4 bytes binary.Write(file, binary.BigEndian, int32(v)) emits:
the big-endian twos-complement representation of `v` truncated to 32
bits (the int32 conversion in Go wraps). -/
def int32beEnc (v : Nat) : List Nat :=
  [v % 2 ^ 32 / 2 ^ 24, v % 2 ^ 32 / 2 ^ 16 % 256, v % 2 ^ 32 / 2 ^ 8 % 256, v % 2 ^ 32 % 256]

/-- The signed value binary.Read(f, binary.BigEndian, &block) decodes
from the 4 offset bytes of a trailer (big-endian twos complement). -/
def int32beDec (bs : List Nat) : Int :=
  if bytesToNatBE bs < 2 ^ 31 then (bytesToNatBE bs : Int) else (bytesToNatBE bs : Int) - 2 ^ 32

theorem int32beEnc_length (v : Nat) : (int32beEnc v).length = 4 := rfl

theorem bytesToNatBE_int32beEnc (v : Nat) : bytesToNatBE (int32beEnc v) = v % 2 ^ 32 := by
  have h : v % 2 ^ 32 < 2 ^ 32 := Nat.mod_lt _ (by norm_num)
  simp only [int32beEnc, bytesToNatBE, List.foldl]
  omega

theorem int32beDec_enc_small {v : Nat} (h : v < 2 ^ 31) :
    int32beDec (int32beEnc v) = (v : Int) := by
  have hv : v % 2 ^ 32 = v := Nat.mod_eq_of_lt (by omega)
  simp only [int32beDec, bytesToNatBE_int32beEnc, hv]
  rw [if_pos h]

theorem int32beDec_enc_high {v : Nat} (h1 : 2 ^ 31 ≤ v) (h2 : v < 2 ^ 32) :
    int32beDec (int32beEnc v) = (v : Int) - 2 ^ 32 := by
  have hv : v % 2 ^ 32 = v := Nat.mod_eq_of_lt h2
  simp only [int32beDec, bytesToNatBE_int32beEnc, hv]
  rw [if_neg (by omega)]

/-! ### Model of the external archive codec

`zipEncode` stands for the Go archive writer (zip.NewWriter + Create +
Close): it serialises a list of (entry name, entry contents) pairs into a
self-describing byte stream.  `zipDecode` stands for the archive reader
(zip.NewReader): it recovers the entry list, failing (`none`, modelling
a NewReader error) on anything that is not a whole well-formed archive.
Entry lengths are stored in unary so that decoding is plainly primitive
recursive. -/

/-- Unary length marker: `n` ones followed by a zero. -/
def encNat (n : Nat) : List Nat := List.replicate n 1 ++ [0]

/-- Parse a unary length marker, returning the value and the rest. -/
def decNat : List Nat → Option (Nat × List Nat)
  | [] => none
  | 0 :: rest => some (0, rest)
  | 1 :: rest =>
    match decNat rest with
    | some (k, r) => some (k + 1, r)
    | none => none
  | _ => none

theorem decNat_replicate (n : Nat) (r : List Nat) :
    decNat (List.replicate n 1 ++ 0 :: r) = some (n, r) := by
  induction n with
  | zero => rfl
  | succ k ih =>
    rw [List.replicate_succ, List.cons_append]
    simp only [decNat]
    rw [ih]

theorem decNat_encNat (n : Nat) (r : List Nat) : decNat (encNat n ++ r) = some (n, r) := by
  have h := decNat_replicate n r
  simpa [encNat, List.append_assoc] using h

/-- Take exactly `k` elements, also returning the rest; `none` if fewer exist. -/
def splitN (l : List Nat) (k : Nat) : Option (List Nat × List Nat) :=
  if k ≤ l.length then some (l.take k, l.drop k) else none

theorem splitN_append (A B : List Nat) : splitN (A ++ B) A.length = some (A, B) := by
  simp [splitN, List.take_left, List.drop_left]

/-- Archive serialisation of an entry list (model of the archive writer). -/
def zipEncode : List (List Nat × List Nat) → List Nat
  | [] => [0]
  | e :: rest => 1 :: (encNat e.1.length ++ (e.1 ++ (encNat e.2.length ++ (e.2 ++ zipEncode rest))))

/-- Fuelled parser for `zipEncode` output (model of the archive reader). -/
def zipDecodeAux : Nat → List Nat → Option (List (List Nat × List Nat))
  | 0, _ => none
  | _ + 1, 0 :: rest => if rest = [] then some [] else none
  | fuel + 1, 1 :: rest =>
    match decNat rest with
    | none => none
    | some (nl, r1) =>
      match splitN r1 nl with
      | none => none
      | some (nm, r2) =>
        match decNat r2 with
        | none => none
        | some (cl, r3) =>
          match splitN r3 cl with
          | none => none
          | some (ct, r4) =>
            match zipDecodeAux fuel r4 with
            | none => none
            | some es => some ((nm, ct) :: es)
  | _ + 1, _ => none

/-- Archive reader on a byte-range view: succeeds exactly on whole
well-formed archives. -/
def zipDecode (bs : List Nat) : Option (List (List Nat × List Nat)) :=
  zipDecodeAux (bs.length + 1) bs

theorem zipDecodeAux_encode (es : List (List Nat × List Nat)) :
    ∀ fuel, es.length + 1 ≤ fuel → zipDecodeAux fuel (zipEncode es) = some es := by
  induction es with
  | nil =>
    intro fuel hf
    match fuel, hf with
    | f + 1, _ => rfl
  | cons e rest ih =>
    intro fuel hf
    match fuel, hf with
    | f + 1, hf =>
      have hrest : zipDecodeAux f (zipEncode rest) = some rest :=
        ih f (by simpa using hf)
      simp only [zipEncode, zipDecodeAux, decNat_encNat, splitN_append, hrest]

theorem zipEncode_length_ge (es : List (List Nat × List Nat)) :
    es.length ≤ (zipEncode es).length := by
  induction es with
  | nil => simp [zipEncode]
  | cons e rest ih => simp only [zipEncode, List.length_cons, List.length_append]; omega

theorem zipDecode_encode (es : List (List Nat × List Nat)) :
    zipDecode (zipEncode es) = some es :=
  zipDecodeAux_encode es _ (by have := zipEncode_length_ge es; omega)

/-! ### Trailer Writer (zipfs.go, `appendZipData` and `hasZipData`)

Strings are modelled as byte lists; 47 is the byte of the path separator
and pattern anchor character.  The embedding targets the POSIX build of
the code, where filepath.Separator is 47 and filepath.ToSlash is the
identity, so relative-path computation is
TrimLeft(TrimPrefix(path, dataDir), slash). -/

/-- strings.TrimPrefix: remove `pre` from the front of `s` when present. -/
def trimPrefixOf (s pre : List Nat) : List Nat :=
  if pre.isPrefixOf s then s.drop pre.length else s

/-- strings.TrimLeft(s, slash-cutset): remove every leading separator byte. -/
def trimLeftSlash (s : List Nat) : List Nat :=
  s.dropWhile (fun c => c == 47)

/-- The entry name appendZipData computes for a walked file:
TrimLeft(ToSlash(TrimPrefix(path, dataDir)), slash), with ToSlash the
identity on slash-separated paths. -/
def relPathOf (dataDir path : List Nat) : List Nat :=
  trimLeftSlash (trimPrefixOf path dataDir)

/-- One item yielded by filepath.Walk: the full path, whether it is a
directory, and (for regular files) its contents. -/
structure WalkItem where
  path : List Nat
  dirFlag : Bool
  content : List Nat
deriving DecidableEq

/-- strings.Contains(s, pat): `pat` occurs contiguously somewhere in `s`. -/
def containsSub (pat : List Nat) : List Nat → Bool
  | [] => pat.isEmpty
  | c :: rest => pat.isPrefixOf (c :: rest) || containsSub pat rest

theorem containsSub_iff (pat s : List Nat) : containsSub pat s = true ↔ pat <:+: s := by
  induction s with
  | nil =>
    simp only [containsSub, List.isEmpty_iff, List.infix_nil]
  | cons c rest ih =>
    simp only [containsSub, Bool.or_eq_true, List.isPrefixOf_iff_prefix, ih,
      List.infix_cons_iff]

/-- The exclusion test appendZipData runs on one pattern, exactly as in
the source: exclude[0] == slash && HasPrefix(relPath, exclude[1:]) ||
Contains(relPath, exclude).  Indexing exclude[0] panics on an empty
pattern, modelled by `none`. -/
def matchExcludeOpt (relPath pat : List Nat) : Option Bool :=
  match pat with
  | [] => none
  | c :: cs => some ((c == 47 && cs.isPrefixOf relPath) || containsSub (c :: cs) relPath)

/-- The per-file exclusion loop with its break: first matching pattern
wins; an empty pattern reached before any match panics (`none`). -/
def excludedOpt (relPath : List Nat) : List (List Nat) → Option Bool
  | [] => some false
  | pat :: rest =>
    match matchExcludeOpt relPath pat with
    | none => none
    | some true => some true
    | some false => excludedOpt relPath rest

/-- Total version of the per-pattern test (agrees with `matchExcludeOpt`
on non-empty patterns). -/
def matchExclude (relPath pat : List Nat) : Bool :=
  match pat with
  | [] => false
  | c :: cs => (c == 47 && cs.isPrefixOf relPath) || containsSub (c :: cs) relPath

/-- Total version of the exclusion decision. -/
def excludedB (relPath : List Nat) (excludes : List (List Nat)) : Bool :=
  excludes.any (fun pat => matchExclude relPath pat)

theorem excludedOpt_eq_excludedB (relPath : List Nat) (excludes : List (List Nat))
    (h : ∀ x ∈ excludes, x ≠ []) :
    excludedOpt relPath excludes = some (excludedB relPath excludes) := by
  induction excludes with
  | nil => rfl
  | cons pat rest ih =>
    match pat, h pat (by simp) with
    | c :: cs, _ =>
      simp only [excludedOpt, matchExcludeOpt, excludedB, List.any_cons, matchExclude]
      cases hm : ((c == 47 && cs.isPrefixOf relPath) || containsSub (c :: cs) relPath) with
      | true => rfl
      | false =>
        simp only [Bool.false_or]
        exact ih (fun x hx => h x (by simp [hx]))

/-- The entry list the walk produces, with the panic possibility threaded
through (`none` = an empty exclusion pattern was indexed). -/
def collectEntries (dataDir : List Nat) (excludes : List (List Nat)) :
    List WalkItem → Option (List (List Nat × List Nat))
  | [] => some []
  | it :: rest =>
    if it.dirFlag then collectEntries dataDir excludes rest
    else
      match excludedOpt (relPathOf dataDir it.path) excludes with
      | none => none
      | some true => collectEntries dataDir excludes rest
      | some false =>
        match collectEntries dataDir excludes rest with
        | none => none
        | some es => some ((relPathOf dataDir it.path, it.content) :: es)

/-- The same entry list written without the panic plumbing: one archive
entry per non-excluded regular file, none for directories. -/
def includedEntries (dataDir : List Nat) (excludes : List (List Nat))
    (tree : List WalkItem) : List (List Nat × List Nat) :=
  tree.filterMap (fun it =>
    if it.dirFlag then none
    else if excludedB (relPathOf dataDir it.path) excludes then none
    else some (relPathOf dataDir it.path, it.content))

theorem collectEntries_eq (dataDir : List Nat) (excludes : List (List Nat))
    (tree : List WalkItem) (h : ∀ x ∈ excludes, x ≠ []) :
    collectEntries dataDir excludes tree = some (includedEntries dataDir excludes tree) := by
  induction tree with
  | nil => rfl
  | cons it rest ih =>
    simp only [collectEntries, includedEntries, List.filterMap_cons]
    rw [excludedOpt_eq_excludedB _ _ h]
    by_cases hd : it.dirFlag
    · simp only [hd, if_true]
      simpa [includedEntries] using ih
    · simp only [hd, if_false, Bool.false_eq_true]
      cases hx : excludedB (relPathOf dataDir it.path) excludes with
      | true => simpa [includedEntries] using ih
      | false =>
        simp only [includedEntries] at ih
        rw [ih]
        rfl

/-- The bytes one append leaves at the end of the file: the collection
name, a NUL, the archive bytes, the ZIPR tag, and the big-endian int32
of the file length recorded before the append (appendZipData lines
161-228). -/
def appendBlock (exe nm zipBytes : List Nat) : List Nat :=
  exe ++ nm ++ [0] ++ zipBytes ++ ziprTag ++ int32beEnc exe.length

/-- appendZipData: walk the tree, filter, archive, append.  `none`
models the index-out-of-range panic on an empty exclusion pattern. -/
def appendZipData (exe nm dataDir : List Nat) (excludes : List (List Nat))
    (tree : List WalkItem) : Option (List Nat) :=
  match collectEntries dataDir excludes tree with
  | none => none
  | some es => some (appendBlock exe nm (zipEncode es))

theorem appendZipData_eq (exe nm dataDir : List Nat) (excludes : List (List Nat))
    (tree : List WalkItem) (h : ∀ x ∈ excludes, x ≠ []) :
    appendZipData exe nm dataDir excludes tree
      = some (appendBlock exe nm (zipEncode (includedEntries dataDir excludes tree))) := by
  simp only [appendZipData, collectEntries_eq dataDir excludes tree h]

/-- hasZipData (zipfs.go lines 134-145): seek to 8 bytes before the end
(a failed seek on a short file is ignored, leaving the offset at 0), read
up to 4 bytes into a zeroed buffer (read errors ignored), and compare
the buffer with the tag. -/
def hasZipData (file : List Nat) : Bool :=
  let pos := if 8 ≤ file.length then file.length - 8 else 0
  let n := min 4 (file.length - pos)
  decide (readBytes file pos n ++ List.replicate (4 - n) 0 = ziprTag)

/-! ### Trailer Chain Reader (zipfs/zipfs.go, `openZipFile`)

The loop state is the reused name buffer (`buf`, allocated zeroed with
the key length and only partially overwritten by a short read) and the
file offset `pos` of the 8-byte trailer about to be read.  `chainStep`
is one iteration of the loop body; every early `return nil` of the Go
code becomes `.done none`. -/

/-- Outcome of one iteration of the lookup loop. -/
inductive StepRes where
  | done : Option (Nat × Nat) → StepRes
  | next : List Nat → Nat → StepRes
deriving DecidableEq

/-- One iteration of the loop in openZipFile (zipfs/zipfs.go lines
59-93): read the 8-byte trailer at `pos` (error if fewer than 8 bytes
remain), check the tag, seek to the decoded offset (error if negative),
read up to `key.length` bytes over the old buffer contents (error only
when zero bytes are available), compare with the key; on a match return
the view bounds (position after the read, trailer position), otherwise
seek back 8 bytes before the referenced offset and continue. -/
def chainStep (file key buf : List Nat) (pos : Nat) : StepRes :=
  if pos + 8 ≤ file.length then
    if readBytes file pos 4 = ziprTag then
      if 0 ≤ int32beDec (readBytes file (pos + 4) 4) then
        if (int32beDec (readBytes file (pos + 4) 4)).toNat < file.length then
          if readBytes file (int32beDec (readBytes file (pos + 4) 4)).toNat
                (min key.length (file.length - (int32beDec (readBytes file (pos + 4) 4)).toNat))
              ++ buf.drop (min key.length (file.length - (int32beDec (readBytes file (pos + 4) 4)).toNat))
              = key then
            if (int32beDec (readBytes file (pos + 4) 4)).toNat
                + min key.length (file.length - (int32beDec (readBytes file (pos + 4) 4)).toNat) = 0
            then .done none
            else .done (some ((int32beDec (readBytes file (pos + 4) 4)).toNat
                + min key.length (file.length - (int32beDec (readBytes file (pos + 4) 4)).toNat), pos))
          else
            if 8 ≤ (int32beDec (readBytes file (pos + 4) 4)).toNat then
              .next (readBytes file (int32beDec (readBytes file (pos + 4) 4)).toNat
                  (min key.length (file.length - (int32beDec (readBytes file (pos + 4) 4)).toNat))
                ++ buf.drop (min key.length (file.length - (int32beDec (readBytes file (pos + 4) 4)).toNat)))
                ((int32beDec (readBytes file (pos + 4) 4)).toNat - 8)
            else .done none
        else .done none
      else .done none
    else .done none
  else .done none

/-- The lookup loop with fuel: `none` means the fuel ran out (the Go
loop is still running), `some r` that the loop finished with result
`r`. -/
def chainWalkF (file key : List Nat) : Nat → List Nat → Nat → Option (Option (Nat × Nat))
  | 0, _, _ => none
  | fuel + 1, buf, pos =>
    match chainStep file key buf pos with
    | .done r => some r
    | .next buf1 pos1 => chainWalkF file key fuel buf1 pos1

/-- openZipFile (zipfs/zipfs.go lines 44-109).  The lookup key is the
collection name plus a NUL; the walk starts at the trailer occupying the
last 8 bytes of the file (a file shorter than 8 bytes fails the initial
seek and returns nil).  On a match the archive reader decodes the view
from the position after the key read up to the trailer position that
pointed at the block (a negative-sized view or a decode failure returns
nil).  Result: `none` = fuel exhausted, `some none` = Go returned nil,
`some (some es)` = Go returned a zip.Reader enumerating entries `es`. -/
def openZipFileF (nm file : List Nat) (fuel : Nat) :
    Option (Option (List (List Nat × List Nat))) :=
  if 8 ≤ file.length then
    match chainWalkF file (nm ++ [0]) fuel (List.replicate (nm.length + 1) 0) (file.length - 8) with
    | none => none
    | some none => some none
    | some (some (off, endOff)) =>
      some (if off ≤ endOff then zipDecode (readBytes file off (endOff - off)) else none)
  else some none

/-- offsetReader.ReadAt (zipfs/zipfs.go lines 111-118): reading `b`
bytes at virtual offset `off` of the view reads the underlying file at
`off + offset`. -/
def offsetReaderReadAt (file : List Nat) (offset b off : Nat) : List Nat :=
  readBytes file (off + offset) b

/-! ### Virtual filesystem facade (zipfs/zipfs.go, `zipFS.Open`) -/

/-- The linear entry scan of zipFS.Open: first entry with the given
name, in archive order. -/
def findEntry (nm : List Nat) : List (List Nat × List Nat) → Option (List Nat × List Nat)
  | [] => none
  | e :: rest => if e.1 = nm then some e else findEntry nm rest

/-- zipFS.Open (zipfs/zipfs.go lines 124-134): strip every leading
slash (strings.TrimLeft(name, slash-cutset)), then scan the entries for
an exact match; `none` models the File-not-found error. -/
def zipFSOpen (entries : List (List Nat × List Nat)) (nm : List Nat) :
    Option (List Nat × List Nat) :=
  findEntry (trimLeftSlash nm) entries

/-- Modelled from the spec: the claimed form of zipFS.Open in which only
a single leading slash is stripped from the requested path. -/
def stripOneSlash : List Nat → List Nat
  | [] => []
  | c :: cs => if c = 47 then cs else c :: cs

/-- Modelled from the spec: the Open variant the claim describes (strip
one leading slash, then the same linear scan). -/
def zipFSOpenClaimed (entries : List (List Nat × List Nat)) (nm : List Nat) :
    Option (List Nat × List Nat) :=
  findEntry (stripOneSlash nm) entries

/-! ### Well-formed files produced by sequences of appends -/

/-- One appended collection: its name and its archive bytes. -/
structure Block where
  nm : List Nat
  archive : List Nat
deriving DecidableEq

/-- The file obtained by appending the blocks to `exe`; the head of the
list is the most recently appended (topmost) block. -/
def buildFile (exe : List Nat) : List Block → List Nat
  | [] => exe
  | b :: rest => appendBlock (buildFile exe rest) b.nm b.archive

/-- The (archive start, trailer position) pair the chain walk finds: the
first block in top-down order whose stored name is the lookup name. -/
def findBlock (nm exe : List Nat) : List Block → Option (Nat × Nat)
  | [] => none
  | b :: rest =>
    if b.nm = nm then
      some ((buildFile exe rest).length + nm.length + 1, (buildFile exe (b :: rest)).length - 8)
    else findBlock nm exe rest

/-! ### Positional reading lemmas -/

theorem readBytes_append_add (A B : List Nat) (k n : Nat) :
    readBytes (A ++ B) (A.length + k) n = readBytes B k n := by
  simp [readBytes, List.drop_append]

theorem readBytes_append_zero (A B : List Nat) (n : Nat) :
    readBytes (A ++ B) A.length n = B.take n := by
  have h := readBytes_append_add A B 0 n
  simp only [Nat.add_zero] at h
  rw [h]
  rfl

theorem readBytes_append_left (A B : List Nat) (off n : Nat) (h : off + n ≤ A.length) :
    readBytes (A ++ B) off n = readBytes A off n := by
  simp only [readBytes]
  rw [List.drop_append_of_le_length (by omega),
    List.take_append_of_le_length (by simp [List.length_drop]; omega)]

theorem appendBlock_length (exe nm zipBytes : List Nat) :
    (appendBlock exe nm zipBytes).length
      = exe.length + nm.length + 1 + zipBytes.length + 8 := by
  simp [appendBlock, int32beEnc, ziprTag]
  omega

theorem buildFile_cons_length (exe : List Nat) (b : Block) (rest : List Block) :
    (buildFile exe (b :: rest)).length
      = (buildFile exe rest).length + b.nm.length + 1 + b.archive.length + 8 := by
  simp [buildFile, appendBlock_length]

/-! ### Claim C4: the already-processed guard -/

theorem hasZipData_tag_iff (file : List Nat) (h : 8 ≤ file.length) :
    hasZipData file = true ↔ readBytes file (file.length - 8) 4 = ziprTag := by
  have hpos : file.length - (file.length - 8) = 8 := by omega
  simp only [hasZipData, if_pos h, hpos]
  norm_num

/--
C4 (corrected).  The append entry point rejects an executable if and
only if `hasZipData` reports the 4-byte tag: for every file of length at
least 8 this happens exactly when the 4 bytes at offsets
[len-8, len-4) — the tag field of a trailer, NOT the last 4 bytes of the
file — equal ZIPR.
-/
theorem hasZipData_checks_tag_at_len_sub_8 (file : List Nat) (h : 8 ≤ file.length) :
    hasZipData file = true ↔ readBytes file (file.length - 8) 4 = ziprTag :=
  hasZipData_tag_iff file h

/-- Witness for the C4 amended theorem at a concrete processed file. -/
theorem hasZipData_checks_tag_witness :
    hasZipData [7, 7, 7, 7, 90, 73, 80, 82, 0, 0, 0, 4] = true
      ↔ readBytes [7, 7, 7, 7, 90, 73, 80, 82, 0, 0, 0, 4] 4 4 = ziprTag :=
  hasZipData_checks_tag_at_len_sub_8 [7, 7, 7, 7, 90, 73, 80, 82, 0, 0, 0, 4] (by decide)

/--
Counterexample to C4 as stated: a file whose LAST 4 bytes are ZIPR (the
claim says it must be rejected) that `hasZipData` does not reject,
because the code reads the 4 bytes starting 8 from the end.
-/
theorem hasZipData_last4_counterexample :
    readBytes [65, 65, 65, 65, 90, 73, 80, 82] 4 4 = ziprTag
      ∧ hasZipData [65, 65, 65, 65, 90, 73, 80, 82] = false := by
  constructor
  · decide
  · decide

/-! ### Claim C8: archive-backed Open -/

theorem findEntry_eq_find (nm : List Nat) (entries : List (List Nat × List Nat)) :
    findEntry nm entries = entries.find? (fun e => e.1 == nm) := by
  induction entries with
  | nil => rfl
  | cons e rest ih =>
    simp only [findEntry, List.find?_cons]
    by_cases he : e.1 = nm
    · simp [he]
    · simp only [if_neg he, ih]
      have hbeq : (e.1 == nm) = false := by simpa using he
      rw [hbeq]

/--
C8 (corrected).  zipFS.Open strips EVERY leading slash from the path
(strings.TrimLeft with a slash cutset, not a single one), scans the
entries linearly and returns the first exact match; it returns the
not-found error exactly when no entry name equals the stripped path.
-/
theorem open_strips_all_slashes :
    (∀ (entries : List (List Nat × List Nat)) (nm : List Nat),
        zipFSOpen entries nm = entries.find? (fun e => e.1 == trimLeftSlash nm))
      ∧ (∀ (entries : List (List Nat × List Nat)) (nm : List Nat),
        zipFSOpen entries nm = none ↔ ∀ e ∈ entries, e.1 ≠ trimLeftSlash nm) := by
  constructor
  · intro entries nm
    exact findEntry_eq_find (trimLeftSlash nm) entries
  · intro entries nm
    rw [zipFSOpen, findEntry_eq_find, List.find?_eq_none]
    constructor
    · intro h e he
      simpa using h e he
    · intro h e he
      simpa using h e he

/-- Witness for the C8 amended theorem at a concrete archive and path. -/
theorem open_strips_all_slashes_witness :
    zipFSOpen [([97], [1])] [47, 47, 97]
      = List.find? (fun e => e.1 == trimLeftSlash [47, 47, 97]) [([97], [1])] :=
  open_strips_all_slashes.1 [([97], [1])] [47, 47, 97]

/--
Counterexample to C8 as stated: on path `//a` (two leading slashes) and
an archive whose only entry is named `a`, the code finds the entry
(TrimLeft removes both slashes) while the claimed single-slash-stripping
Open does not.
-/
theorem open_strip_single_slash_counterexample :
    zipFSOpen [([97], [1])] [47, 47, 97] = some ([97], [1])
      ∧ zipFSOpenClaimed [([97], [1])] [47, 47, 97] = none := by
  constructor
  · decide
  · decide

/-! ### Claim C6: exclusion semantics -/

/-- A pattern matching a relative path the way the code actually
decides it, stated in specification terms: a slash-anchored pattern
matches when its remainder is a prefix of the path OR when the whole
pattern (slash included) occurs as a substring; a non-anchored pattern
matches as a substring. -/
def slashAnchoredOrSubstring (pat relPath : List Nat) : Prop :=
  pat ≠ [] ∧ ((pat.head? = some 47 ∧ pat.tail <+: relPath) ∨ pat <:+: relPath)

/-- Modelled from the spec: the exclusive claimed reading of the rule,
under which a slash-anchored pattern matches ONLY as a root-anchored
prefix and never as a substring. -/
def claimedMatch (pat relPath : List Nat) : Bool :=
  match pat with
  | [] => false
  | c :: cs => if c = 47 then cs.isPrefixOf relPath else containsSub (c :: cs) relPath

/-- Modelled from the spec: the exclusion decision the claim describes. -/
def claimedExcluded (relPath : List Nat) (excludes : List (List Nat)) : Bool :=
  excludes.any (fun pat => claimedMatch pat relPath)

theorem matchExclude_iff (pat relPath : List Nat) :
    matchExclude relPath pat = true ↔ slashAnchoredOrSubstring pat relPath := by
  match pat with
  | [] => simp [matchExclude, slashAnchoredOrSubstring]
  | c :: cs =>
    simp only [matchExclude, slashAnchoredOrSubstring, Bool.or_eq_true, Bool.and_eq_true,
      beq_iff_eq, List.isPrefixOf_iff_prefix, containsSub_iff, List.head?_cons,
      Option.some.injEq, List.tail_cons, ne_eq, reduceCtorEq, not_false_eq_true, true_and]

/--
C6 (corrected).  On every append a regular file with relative path p is
excluded if and only if some pattern matches it, where a pattern
starting with a slash matches as a root-anchored prefix OR as a
substring anywhere in p (both disjuncts apply to anchored patterns),
and any other pattern matches as a substring; all other regular files
produce exactly one archive entry and directories produce none.
-/
theorem exclusion_semantics_amended :
    (∀ (relPath : List Nat) (excludes : List (List Nat)),
        excludedB relPath excludes = true
          ↔ ∃ pat ∈ excludes, slashAnchoredOrSubstring pat relPath)
      ∧ (∀ (exe nm dataDir : List Nat) (excludes : List (List Nat)) (tree : List WalkItem),
        (∀ x ∈ excludes, x ≠ []) →
          appendZipData exe nm dataDir excludes tree
            = some (appendBlock exe nm (zipEncode (includedEntries dataDir excludes tree)))) := by
  constructor
  · intro relPath excludes
    simp only [excludedB, List.any_eq_true, matchExclude_iff]
  · intro exe nm dataDir excludes tree h
    exact appendZipData_eq exe nm dataDir excludes tree h

/-- Witness for the C6 amended theorem at a concrete tree and pattern
list: the file a/s/y is excluded by the anchored pattern /s through the
substring disjunct, so the appended archive is empty. -/
theorem exclusion_semantics_amended_witness :
    appendZipData [] [65] [] [[47, 115]] [⟨[97, 47, 115, 47, 121], false, [7]⟩]
      = some (appendBlock [] [65] (zipEncode (includedEntries [] [[47, 115]]
          [⟨[97, 47, 115, 47, 121], false, [7]⟩]))) :=
  exclusion_semantics_amended.2 [] [65] [] [[47, 115]]
    [⟨[97, 47, 115, 47, 121], false, [7]⟩] (by decide)

/--
Counterexample to C6 as stated: pattern `/s` on relative path `a/s/y`.
Under the claimed semantics an anchored pattern matches only as a
root-anchored prefix, so the file would be included; the code also
tries the pattern as a substring, finds `/s` inside `a/s/y`, and
excludes the file (the appended archive is empty).
-/
theorem exclusion_slash_substring_counterexample :
    claimedExcluded [97, 47, 115, 47, 121] [[47, 115]] = false
      ∧ excludedB [97, 47, 115, 47, 121] [[47, 115]] = true
      ∧ appendZipData [] [65] [] [[47, 115]] [⟨[97, 47, 115, 47, 121], false, [7]⟩]
          = some (appendBlock [] [65] (zipEncode [])) := by
  refine ⟨by decide, by decide, by decide⟩

/-! ### Claim C10: safety of the exclusion indexing -/

/--
C10 (confirmed).  The walk body indexes exclude[0] without a length
guard.  When every exclusion pattern is non-empty the access is always
in bounds and the whole append runs without panicking; the precondition
is necessary, because on an input containing an empty pattern string
(and at least one regular file reaching the test) the access is out of
bounds (modelled by `appendZipData` returning `none`).
-/
theorem appendZipData_excludes_safety :
    (∀ (exe nm dataDir : List Nat) (excludes : List (List Nat)) (tree : List WalkItem),
        (∀ x ∈ excludes, x ≠ []) →
          (appendZipData exe nm dataDir excludes tree).isSome = true)
      ∧ appendZipData [] [65] [] [[]] [⟨[97], false, [7]⟩] = none := by
  constructor
  · intro exe nm dataDir excludes tree h
    rw [appendZipData_eq exe nm dataDir excludes tree h]
    rfl
  · decide

/-- Witness for the C10 safety conjunct at a concrete non-empty pattern
list. -/
theorem appendZipData_excludes_safety_witness :
    (appendZipData [] [66] [] [[47, 97]] [⟨[98], false, [2]⟩]).isSome = true :=
  appendZipData_excludes_safety.1 [] [66] [] [[47, 97]] [⟨[98], false, [2]⟩] (by decide)

/-! ### Block anatomy: where each field of an appended block lies -/

theorem appendBlock_assoc (A nm Z T : List Nat) :
    appendBlock A nm Z ++ T
      = (A ++ nm ++ [0] ++ Z) ++ (ziprTag ++ (int32beEnc A.length ++ T)) := by
  simp [appendBlock, List.append_assoc]

theorem appendBlock_tag (A nm Z T : List Nat) :
    readBytes (appendBlock A nm Z ++ T) (A.length + nm.length + 1 + Z.length) 4 = ziprTag := by
  rw [appendBlock_assoc]
  have hlen : A.length + nm.length + 1 + Z.length = (A ++ nm ++ [0] ++ Z).length := by
    simp
    omega
  rw [hlen, readBytes_append_zero, List.take_append_of_le_length (by rfl)]
  rfl

theorem appendBlock_off (A nm Z T : List Nat) :
    readBytes (appendBlock A nm Z ++ T) (A.length + nm.length + 1 + Z.length + 4) 4
      = int32beEnc A.length := by
  have hassoc : appendBlock A nm Z ++ T
      = (A ++ nm ++ [0] ++ Z ++ ziprTag) ++ (int32beEnc A.length ++ T) := by
    simp [appendBlock, List.append_assoc]
  rw [hassoc]
  have hlen : A.length + nm.length + 1 + Z.length + 4 = (A ++ nm ++ [0] ++ Z ++ ziprTag).length := by
    simp [ziprTag]
    omega
  rw [hlen, readBytes_append_zero, List.take_append_of_le_length (by rw [int32beEnc_length])]
  simp [int32beEnc]

theorem appendBlock_drop (A nm Z T : List Nat) :
    (appendBlock A nm Z ++ T).drop A.length
      = nm ++ 0 :: (Z ++ ziprTag ++ (int32beEnc A.length ++ T)) := by
  have hassoc : appendBlock A nm Z ++ T
      = A ++ (nm ++ 0 :: (Z ++ ziprTag ++ (int32beEnc A.length ++ T))) := by
    simp [appendBlock, List.append_assoc]
  rw [hassoc, List.drop_left]

theorem appendBlock_key (A nm Z T : List Nat) :
    readBytes (appendBlock A nm Z ++ T) A.length (nm.length + 1) = nm ++ [0] := by
  have hassoc : appendBlock A nm Z ++ T
      = A ++ ((nm ++ [0]) ++ (Z ++ ziprTag ++ (int32beEnc A.length ++ T))) := by
    simp [appendBlock, List.append_assoc]
  rw [hassoc, readBytes_append_zero, List.take_append_of_le_length (by simp)]
  simp

theorem appendBlock_slice (A nm Z T : List Nat) :
    readBytes (appendBlock A nm Z ++ T) (A.length + (nm.length + 1)) Z.length = Z := by
  have hassoc : appendBlock A nm Z ++ T
      = (A ++ (nm ++ [0])) ++ (Z ++ (ziprTag ++ (int32beEnc A.length ++ T))) := by
    simp [appendBlock, List.append_assoc]
  rw [hassoc]
  have hlen : A.length + (nm.length + 1) = (A ++ (nm ++ [0])).length := by
    simp
  rw [hlen, readBytes_append_zero, List.take_append_of_le_length (by rfl)]
  simp

/-! ### One iteration of the walk: match and no-match characterisations -/

theorem chainStep_match (file key buf : List Nat) (pos o : Nat)
    (h8 : pos + 8 ≤ file.length)
    (htag : readBytes file pos 4 = ziprTag)
    (hdec : int32beDec (readBytes file (pos + 4) 4) = (o : Int))
    (hkey : 0 < key.length)
    (hbuf : buf.length = key.length)
    (hread : o + key.length ≤ file.length)
    (hmatch : readBytes file o key.length = key) :
    chainStep file key buf pos = .done (some (o + key.length, pos)) := by
  have hlt : o < file.length := by omega
  have hn : min key.length (file.length - o) = key.length := Nat.min_eq_left (by omega)
  have hdrop : buf.drop key.length = [] := List.drop_eq_nil_of_le (le_of_eq hbuf)
  simp only [chainStep]
  rw [if_pos h8, if_pos htag, hdec]
  rw [if_pos (Int.natCast_nonneg o)]
  simp only [Int.toNat_natCast]
  rw [if_pos hlt, hn, hmatch, hdrop, List.append_nil]
  rw [if_pos rfl, if_neg (by omega : ¬(o + key.length = 0))]

theorem chainStep_no_match (file key buf : List Nat) (pos o : Nat)
    (h8 : pos + 8 ≤ file.length)
    (htag : readBytes file pos 4 = ziprTag)
    (hdec : int32beDec (readBytes file (pos + 4) 4) = (o : Int))
    (hlt : o < file.length)
    (hne : readBytes file o (min key.length (file.length - o))
        ++ buf.drop (min key.length (file.length - o)) ≠ key)
    (h8o : 8 ≤ o) :
    chainStep file key buf pos
      = .next (readBytes file o (min key.length (file.length - o))
          ++ buf.drop (min key.length (file.length - o))) (o - 8) := by
  simp only [chainStep]
  rw [if_pos h8, if_pos htag, hdec]
  rw [if_pos (Int.natCast_nonneg o)]
  simp only [Int.toNat_natCast]
  rw [if_pos hlt, if_neg hne, if_pos h8o]

theorem offsetReaderReadAt_spec (file : List Nat) (base b v : Nat) :
    offsetReaderReadAt file base b v = readBytes file (base + v) b := by
  simp [offsetReaderReadAt, Nat.add_comm]

/-! ### Claim C2: view bounds and view addressing -/

/--
C2 (confirmed).  Whenever an iteration of the chain walk matches the
lookup key (the `key.length` bytes of the file at `candidateOffset = o`
equal the key), the loop exits with the view pair
`(o + key.length, pos)`: the view starts right after the key and its
exclusive upper bound is the file offset `pos` of the 8-byte trailer
that was followed to reach the block — `file.length - 8` on the first
iteration and `previousCandidateOffset - 8` on later ones, which is
exactly how `pos` evolves (second conjunct).  Every ReadAt of the
returned view at virtual offset `v` reads the underlying file at
`o + key.length + v` (last conjunct).
-/
theorem chain_walk_view_bounds :
    (∀ (file key buf : List Nat) (pos o : Nat),
        pos + 8 ≤ file.length →
        readBytes file pos 4 = ziprTag →
        int32beDec (readBytes file (pos + 4) 4) = (o : Int) →
        0 < key.length →
        buf.length = key.length →
        o + key.length ≤ file.length →
        readBytes file o key.length = key →
        chainStep file key buf pos = .done (some (o + key.length, pos)))
      ∧ (∀ (file key buf : List Nat) (pos o : Nat),
        pos + 8 ≤ file.length →
        readBytes file pos 4 = ziprTag →
        int32beDec (readBytes file (pos + 4) 4) = (o : Int) →
        o < file.length →
        readBytes file o (min key.length (file.length - o))
            ++ buf.drop (min key.length (file.length - o)) ≠ key →
        8 ≤ o →
        chainStep file key buf pos
          = .next (readBytes file o (min key.length (file.length - o))
              ++ buf.drop (min key.length (file.length - o))) (o - 8))
      ∧ (∀ (file : List Nat) (base b v : Nat),
        offsetReaderReadAt file base b v = readBytes file (base + v) b) :=
  ⟨chainStep_match, chainStep_no_match, offsetReaderReadAt_spec⟩

/-- Witness for C2 at a concrete file: one appended block, match on the
first iteration.  The file has length 20, the trailer sits at 12, the
key is read at offset 8, and the view pair is (10, 12). -/
theorem chain_walk_view_bounds_witness :
    chainStep (appendBlock [1, 1, 1, 1, 1, 1, 1, 1] [66] [5, 5]) [66, 0] [0, 0] 12
      = .done (some (10, 12)) :=
  chain_walk_view_bounds.1 (appendBlock [1, 1, 1, 1, 1, 1, 1, 1] [66] [5, 5])
    [66, 0] [0, 0] 12 8 (by decide) (by decide) (by decide) (by decide) (by decide)
    (by decide) (by decide)

/-! ### The first iteration matches the topmost block -/

theorem openZipFile_top_match (A nm Z : List Nat) (hlen : A.length < 2 ^ 31) (fuel : Nat) :
    openZipFileF nm (appendBlock A nm Z) (fuel + 1) = some (zipDecode Z) := by
  have hF : (appendBlock A nm Z).length = A.length + nm.length + 1 + Z.length + 8 :=
    appendBlock_length A nm Z
  have h8 : 8 ≤ (appendBlock A nm Z).length := by omega
  have hpos : (appendBlock A nm Z).length - 8 = A.length + nm.length + 1 + Z.length := by omega
  have htag : readBytes (appendBlock A nm Z) ((appendBlock A nm Z).length - 8) 4 = ziprTag := by
    have h := appendBlock_tag A nm Z []
    rw [List.append_nil] at h
    rw [hpos]
    exact h
  have hoff : int32beDec (readBytes (appendBlock A nm Z) ((appendBlock A nm Z).length - 8 + 4) 4)
      = (A.length : Int) := by
    have h := appendBlock_off A nm Z []
    rw [List.append_nil] at h
    rw [hpos, h]
    exact int32beDec_enc_small hlen
  have hkeyread : readBytes (appendBlock A nm Z) A.length (nm ++ [0]).length = nm ++ [0] := by
    have h := appendBlock_key A nm Z []
    rw [List.append_nil] at h
    simpa using h
  have hstep : chainStep (appendBlock A nm Z) (nm ++ [0]) (List.replicate (nm.length + 1) 0)
      ((appendBlock A nm Z).length - 8)
      = .done (some (A.length + (nm ++ [0]).length, (appendBlock A nm Z).length - 8)) := by
    apply chainStep_match (appendBlock A nm Z) (nm ++ [0])
      (List.replicate (nm.length + 1) 0) ((appendBlock A nm Z).length - 8) A.length
    · omega
    · exact htag
    · exact hoff
    · simp
    · simp
    · simp only [List.length_append, List.length_cons, List.length_nil]
      omega
    · exact hkeyread
  have hslice : readBytes (appendBlock A nm Z) (A.length + (nm.length + 1)) Z.length = Z := by
    have h := appendBlock_slice A nm Z []
    rwa [List.append_nil] at h
  simp only [openZipFileF, if_pos h8, chainWalkF, hstep]
  have hlen2 : (nm ++ [0]).length = nm.length + 1 := by simp
  rw [hlen2]
  rw [if_pos (by omega : A.length + (nm.length + 1) ≤ (appendBlock A nm Z).length - 8)]
  have hsz : (appendBlock A nm Z).length - 8 - (A.length + (nm.length + 1)) = Z.length := by
    omega
  rw [hsz, hslice]

/-! ### Claim C1: append / locate round-trip -/

/--
C1 (confirmed).  Appending a source tree as collection `nm` with
appendZipData and then locating `nm` with openZipFile and enumerating
the returned archive yields exactly the non-excluded regular files of
the walk, with the relative paths appendZipData computed
(slash-separated, dataDir prefix removed, leading separators stripped)
and byte-identical contents.  Hypotheses: the exclusion patterns are
non-empty (otherwise the append panics, claim C10) and the prior executable
length fits the int32 offset field of the trailer (claim C9).
-/
theorem append_then_locate_roundtrip (exe nm dataDir : List Nat)
    (excludes : List (List Nat)) (tree : List WalkItem) (file : List Nat) (fuel : Nat)
    (hx : ∀ x ∈ excludes, x ≠ []) (hlen : exe.length < 2 ^ 31)
    (happ : appendZipData exe nm dataDir excludes tree = some file) :
    openZipFileF nm file (fuel + 1) = some (some (includedEntries dataDir excludes tree)) := by
  rw [appendZipData_eq exe nm dataDir excludes tree hx, Option.some.injEq] at happ
  rw [← happ, openZipFile_top_match exe nm _ hlen, zipDecode_encode]

/-- Witness for C1 at a concrete tree: dataDir `d`, one regular file
`d/b` (contents [9, 9]), exclusion pattern `/a`; the located archive
holds exactly the entry `b`. -/
theorem append_then_locate_roundtrip_witness :
    openZipFileF [67]
      (appendBlock [1, 1, 1, 1, 1, 1, 1, 1] [67]
        (zipEncode (includedEntries [100] [[47, 97]] [⟨[100, 47, 98], false, [9, 9]⟩]))) 1
      = some (some (includedEntries [100] [[47, 97]] [⟨[100, 47, 98], false, [9, 9]⟩])) :=
  append_then_locate_roundtrip [1, 1, 1, 1, 1, 1, 1, 1] [67] [100] [[47, 97]]
    [⟨[100, 47, 98], false, [9, 9]⟩] _ 0 (by decide) (by decide) (by decide)

/-! ### Claim C3: last write wins -/

/--
C3 (confirmed).  After appending two collections with the same name to
the same executable, looking the name up returns the archive of the
second (most recently appended) block: the backward walk starts at the
end-of-file trailer, which belongs to the second block, and matches
there on the first iteration.  (The theorem holds for any two entry
lists, in particular different ones.)
-/
theorem duplicate_name_last_write_wins (exe nmD : List Nat)
    (es1 es2 : List (List Nat × List Nat)) (fuel : Nat)
    (hlen : (appendBlock exe nmD (zipEncode es1)).length < 2 ^ 31) :
    openZipFileF nmD
      (appendBlock (appendBlock exe nmD (zipEncode es1)) nmD (zipEncode es2)) (fuel + 1)
      = some (some es2) := by
  rw [openZipFile_top_match _ _ _ hlen, zipDecode_encode]

/-- Witness for C3 at two concrete one-entry collections named `D` with
different contents: the second one is returned. -/
theorem duplicate_name_last_write_wins_witness :
    openZipFileF [68]
      (appendBlock (appendBlock [] [68] (zipEncode [([97], [1])])) [68]
        (zipEncode [([97], [2])])) 1
      = some (some [([97], [2])]) :=
  duplicate_name_last_write_wins [] [68] [([97], [1])] [([97], [2])] 0 (by decide)

/-! ### Claim C9: the trailer offset field -/

theorem appendBlock_last4 (exe nm Z : List Nat) :
    readBytes (appendBlock exe nm Z) ((appendBlock exe nm Z).length - 4) 4
      = int32beEnc exe.length := by
  have hpos : (appendBlock exe nm Z).length - 4
      = exe.length + nm.length + 1 + Z.length + 4 := by
    rw [appendBlock_length]
    omega
  have h := appendBlock_off exe nm Z []
  rw [List.append_nil] at h
  rw [hpos]
  exact h

/--
C9 (corrected).  The 4-byte field written as the last field of the
trailer is the big-endian twos-complement truncation int32(offset) of
the executable length immediately before the append; it decodes to
that length exactly when the length is below 2^31 (on larger files the
stored value wraps and the claimed equality fails, see the
counterexample).
-/
theorem trailer_offset_field (exe nm Z : List Nat) :
    readBytes (appendBlock exe nm Z) ((appendBlock exe nm Z).length - 4) 4
        = int32beEnc exe.length
      ∧ (exe.length < 2 ^ 31 →
        int32beDec (readBytes (appendBlock exe nm Z) ((appendBlock exe nm Z).length - 4) 4)
          = (exe.length : Int)) := by
  refine ⟨appendBlock_last4 exe nm Z, fun hsmall => ?_⟩
  rw [appendBlock_last4 exe nm Z]
  exact int32beDec_enc_small hsmall

/-- Witness for the C9 conditional conjunct at a concrete small append. -/
theorem trailer_offset_field_witness :
    int32beDec (readBytes (appendBlock [9] [66] [5]) ((appendBlock [9] [66] [5]).length - 4) 4)
      = (([9] : List Nat).length : Int) :=
  (trailer_offset_field [9] [66] [5]).2 (by decide)

/--
Counterexample to C9 as stated: appending to an executable of length
2^31 succeeds, but the stored 4-byte big-endian twos-complement field
decodes to -(2^31), not to the byte offset 2^31 — the int32 conversion
in Go silently wraps.
-/
theorem trailer_offset_wraps_counterexample :
    int32beDec (readBytes (appendBlock (List.replicate (2 ^ 31) 0) [65] [1])
        ((appendBlock (List.replicate (2 ^ 31) 0) [65] [1]).length - 4) 4) = -(2 ^ 31)
      ∧ ((List.replicate (2 ^ 31) (0 : Nat)).length : Int) = 2 ^ 31
      ∧ (-(2 ^ 31) : Int) < 2 ^ 31 := by
  have h := appendBlock_last4 (List.replicate (2 ^ 31) 0) [65] [1]
  have hlen : (List.replicate (2 ^ 31) (0 : Nat)).length = 2 ^ 31 :=
    List.length_replicate (2 ^ 31) 0
  refine ⟨?_, by rw [hlen]; norm_num, by norm_num⟩
  rw [h, hlen, int32beDec_enc_high (le_refl (2 ^ 31)) (by norm_num)]
  norm_num

/-! ### No spurious match: NUL-free names make the key comparison exact -/

theorem nulSplitPrefixEq {a b s t : List Nat} (ha : (0 : Nat) ∉ a) (hb : (0 : Nat) ∉ b)
    (h : (a ++ 0 :: s) <+: (b ++ 0 :: t)) : a = b := by
  induction a generalizing b with
  | nil =>
    cases b with
    | nil => rfl
    | cons c b2 =>
      simp only [List.nil_append, List.cons_append, List.cons_prefix_cons] at h
      have hmem : (0 : Nat) ∈ c :: b2 := by
        rw [h.1]
        exact List.mem_cons_self c b2
      exact absurd hmem hb
  | cons x a2 ih =>
    cases b with
    | nil =>
      simp only [List.nil_append, List.cons_append, List.cons_prefix_cons] at h
      have hmem : (0 : Nat) ∈ x :: a2 := by
        rw [← h.1]
        exact List.mem_cons_self x a2
      exact absurd hmem ha
    | cons y b2 =>
      simp only [List.cons_append, List.cons_prefix_cons] at h
      have ha2 : (0 : Nat) ∉ a2 := fun hm => ha (List.mem_cons_of_mem x hm)
      have hb2 : (0 : Nat) ∉ b2 := fun hm => hb (List.mem_cons_of_mem y hm)
      rw [h.1, ih ha2 hb2 h.2]

/-- If the bytes at `o` spell a NUL-terminated name other than the
lookup name, the buffer comparison in the walk can never report a
match, full or short read alike. -/
theorem buf_no_match (F buf nm nmB suffix : List Nat) (o : Nat)
    (hdrop : F.drop o = nmB ++ 0 :: suffix)
    (hbuf : buf.length = nm.length + 1)
    (hnmNul : (0 : Nat) ∉ nm) (hbNul : (0 : Nat) ∉ nmB) (hne : nmB ≠ nm) :
    readBytes F o (min (nm.length + 1) (F.length - o))
        ++ buf.drop (min (nm.length + 1) (F.length - o)) ≠ nm ++ [0] := by
  have hS : (F.drop o).length = F.length - o := List.length_drop o F
  rw [hdrop] at hS
  simp only [List.length_append, List.length_cons] at hS
  intro hEq
  by_cases hcase : nm.length + 1 ≤ F.length - o
  · have hn : min (nm.length + 1) (F.length - o) = nm.length + 1 := Nat.min_eq_left hcase
    rw [hn] at hEq
    have hdropbuf : buf.drop (nm.length + 1) = [] := List.drop_eq_nil_of_le (le_of_eq hbuf)
    rw [hdropbuf, List.append_nil] at hEq
    have hpre : (nm ++ 0 :: ([] : List Nat)) <+: (nmB ++ 0 :: suffix) := by
      rw [← hdrop, List.prefix_iff_eq_take]
      have hfix : (nm ++ 0 :: ([] : List Nat)).length = nm.length + 1 := by simp
      rw [hfix]
      exact hEq.symm
    exact hne (nulSplitPrefixEq hnmNul hbNul hpre).symm
  · have hn : min (nm.length + 1) (F.length - o) = F.length - o := Nat.min_eq_right (by omega)
    rw [hn] at hEq
    have hall : readBytes F o (F.length - o) = nmB ++ 0 :: suffix := by
      rw [readBytes, List.take_of_length_le (by rw [List.length_drop]), hdrop]
    rw [hall] at hEq
    have hpre2 : (nmB ++ 0 :: suffix) <+: (nm ++ 0 :: ([] : List Nat)) := by
      refine ⟨buf.drop (F.length - o), ?_⟩
      simpa using hEq
    exact hne (nulSplitPrefixEq hbNul hnmNul hpre2)

/-! ### The chain walk on well-formed files -/

/-- On a file built by appending `blocks` (head = most recent) to a
guard-passing executable, the lookup loop computes exactly the top-down
first-match search `findBlock`, within one iteration per block plus a
final structural check, for any extra suffix `T` after the built file
and any buffer contents of the key length. -/
theorem chainWalk_findBlock (exe nm : List Nat) (hguard : hasZipData exe = false)
    (hnm : (0 : Nat) ∉ nm) :
    ∀ (blocks : List Block),
      (buildFile exe blocks).length < 2 ^ 31 →
      (∀ blk ∈ blocks, (0 : Nat) ∉ blk.nm) →
      ∀ (T buf : List Nat), buf.length = nm.length + 1 →
        8 ≤ (buildFile exe blocks).length →
        chainWalkF (buildFile exe blocks ++ T) (nm ++ [0]) (blocks.length + 1) buf
          ((buildFile exe blocks).length - 8) = some (findBlock nm exe blocks) := by
  intro blocks
  induction blocks with
  | nil =>
    intro hlen hbs T buf hbuf h8
    simp only [buildFile] at h8 ⊢
    have htagne : ¬ readBytes (exe ++ T) (exe.length - 8) 4 = ziprTag := by
      rw [readBytes_append_left exe T (exe.length - 8) 4 (by omega)]
      intro hc
      have hz := (hasZipData_tag_iff exe h8).mpr hc
      rw [hguard] at hz
      exact Bool.false_ne_true hz
    have hstep : chainStep (exe ++ T) (nm ++ [0]) buf (exe.length - 8) = .done none := by
      simp only [chainStep]
      rw [if_pos (by simp only [List.length_append]; omega), if_neg htagne]
    simp only [List.length_nil, chainWalkF, hstep, findBlock]
  | cons b rest ih =>
    intro hlen hbs T buf hbuf h8
    have hlenA : (buildFile exe (b :: rest)).length
        = (buildFile exe rest).length + b.nm.length + 1 + b.archive.length + 8 :=
      buildFile_cons_length exe b rest
    have hlenA2 : (buildFile exe rest).length < 2 ^ 31 := by omega
    have hfile : buildFile exe (b :: rest)
        = appendBlock (buildFile exe rest) b.nm b.archive := rfl
    have hpos : (buildFile exe (b :: rest)).length - 8
        = (buildFile exe rest).length + b.nm.length + 1 + b.archive.length := by omega
    have htag : readBytes (buildFile exe (b :: rest) ++ T)
        ((buildFile exe (b :: rest)).length - 8) 4 = ziprTag := by
      rw [hpos, hfile]
      exact appendBlock_tag (buildFile exe rest) b.nm b.archive T
    have hoff : int32beDec (readBytes (buildFile exe (b :: rest) ++ T)
        ((buildFile exe (b :: rest)).length - 8 + 4) 4) = ((buildFile exe rest).length : Int) := by
      rw [hpos, hfile, appendBlock_off (buildFile exe rest) b.nm b.archive T]
      exact int32beDec_enc_small hlenA2
    have h8F : (buildFile exe (b :: rest)).length - 8 + 8
        ≤ (buildFile exe (b :: rest) ++ T).length := by
      simp only [List.length_append]
      omega
    by_cases hmatch : b.nm = nm
    · have hnmlen : b.nm.length = nm.length := by rw [hmatch]
      have hkeyread : readBytes (buildFile exe (b :: rest) ++ T)
          (buildFile exe rest).length (nm ++ [0]).length = nm ++ [0] := by
        have h := appendBlock_key (buildFile exe rest) b.nm b.archive T
        rw [hmatch] at h
        rw [hfile, hmatch]
        simpa using h
      have hread : (buildFile exe rest).length + (nm ++ [0]).length
          ≤ (buildFile exe (b :: rest) ++ T).length := by
        simp only [List.length_append, List.length_cons, List.length_nil]
        omega
      have hstep := chainStep_match (buildFile exe (b :: rest) ++ T) (nm ++ [0]) buf
        ((buildFile exe (b :: rest)).length - 8) (buildFile exe rest).length h8F htag hoff
        (by simp) (by simpa using hbuf) hread hkeyread
      simp only [List.length_cons, chainWalkF, hstep]
      simp only [findBlock, if_pos hmatch]
      have hc : (buildFile exe rest).length + (nm ++ [0]).length
          = (buildFile exe rest).length + nm.length + 1 := by
        simp only [List.length_append, List.length_cons, List.length_nil]
        omega
      rw [hc]
    · have hdropF : (buildFile exe (b :: rest) ++ T).drop (buildFile exe rest).length
          = b.nm ++ 0 :: (b.archive ++ ziprTag
              ++ (int32beEnc (buildFile exe rest).length ++ T)) := by
        rw [hfile]
        exact appendBlock_drop (buildFile exe rest) b.nm b.archive T
      have hne := buf_no_match (buildFile exe (b :: rest) ++ T) buf nm b.nm
        (b.archive ++ ziprTag ++ (int32beEnc (buildFile exe rest).length ++ T))
        (buildFile exe rest).length hdropF hbuf hnm
        (hbs b (List.mem_cons_self b rest)) hmatch
      have hkl : (nm ++ [0]).length = nm.length + 1 := by simp
      rw [← hkl] at hne
      have holt : (buildFile exe rest).length < (buildFile exe (b :: rest) ++ T).length := by
        simp only [List.length_append]
        omega
      by_cases h8A : 8 ≤ (buildFile exe rest).length
      · have hstep := chainStep_no_match (buildFile exe (b :: rest) ++ T) (nm ++ [0]) buf
          ((buildFile exe (b :: rest)).length - 8) (buildFile exe rest).length
          h8F htag hoff holt hne h8A
        simp only [List.length_cons, chainWalkF, hstep]
        simp only [findBlock, if_neg hmatch]
        have hsplit : buildFile exe (b :: rest) ++ T
            = buildFile exe rest ++ (b.nm ++ [0] ++ (b.archive
                ++ (ziprTag ++ (int32beEnc (buildFile exe rest).length ++ T)))) := by
          rw [hfile]
          simp [appendBlock, List.append_assoc]
        rw [hsplit]
        refine ih hlenA2 (fun blk hm => hbs blk (List.mem_cons_of_mem b hm)) _ _ ?_ h8A
        simp only [List.length_append, readBytes, List.length_take, List.length_drop, hbuf]
        simp only [List.length_append, List.length_cons, List.length_nil]
        omega
      · have hstep : chainStep (buildFile exe (b :: rest) ++ T) (nm ++ [0]) buf
            ((buildFile exe (b :: rest)).length - 8) = .done none := by
          simp only [chainStep]
          rw [if_pos h8F, if_pos htag, hoff,
            if_pos (Int.natCast_nonneg (buildFile exe rest).length)]
          simp only [Int.toNat_natCast]
          rw [if_pos holt, if_neg hne, if_neg h8A]
        simp only [List.length_cons, chainWalkF, hstep]
        cases rest with
        | nil => simp only [findBlock, if_neg hmatch]
        | cons b2 rest2 =>
          exfalso
          have h9 := buildFile_cons_length exe b2 rest2
          omega

/-! ### Claim C5: termination of the chain walk -/

/--
C5 (corrected, amended side).  On every file produced by appending
blocks (with NUL-free names and int32-representable offsets) to an
executable that passes the already-processed guard, the lookup loop
terminates, performing at most one iteration per appended block plus
the final structural tag check: fuel `blocks.length + 1` already
suffices for the loop to finish.  (On arbitrary file contents the loop
need not terminate — see the cyclic counterexample.)
-/
theorem chain_walk_terminates_on_built_files (exe nm : List Nat) (blocks : List Block)
    (hguard : hasZipData exe = false) (hnm : (0 : Nat) ∉ nm)
    (hlen : (buildFile exe blocks).length < 2 ^ 31)
    (hbs : ∀ blk ∈ blocks, (0 : Nat) ∉ blk.nm) :
    openZipFileF nm (buildFile exe blocks) (blocks.length + 1) ≠ none := by
  by_cases h8 : 8 ≤ (buildFile exe blocks).length
  · have h := chainWalk_findBlock exe nm hguard hnm blocks hlen hbs []
      (List.replicate (nm.length + 1) 0) (by simp) h8
    rw [List.append_nil] at h
    simp only [openZipFileF, if_pos h8, h]
    cases findBlock nm exe blocks with
    | none => simp
    | some p => simp
  · simp [openZipFileF, if_neg h8]

/-- Witness for the C5 amended theorem at a concrete one-block file. -/
theorem chain_walk_terminates_witness :
    openZipFileF [65] (buildFile [1, 1, 1, 1, 1, 1, 1, 1] [⟨[66], [5]⟩]) 2 ≠ none :=
  chain_walk_terminates_on_built_files [1, 1, 1, 1, 1, 1, 1, 1] [65] [⟨[66], [5]⟩]
    (by decide) (by decide) (by decide) (by decide)

/-- A crafted 24-byte file whose three ZIPR trailers form an offset
cycle: the trailer at 16 points at 8, whose back-step lands on the
trailer at 0, which points at 16, whose back-step lands on the trailer
at 8 again. -/
def cycFile : List Nat :=
  [90, 73, 80, 82, 0, 0, 0, 16, 90, 73, 80, 82, 0, 0, 0, 8, 90, 73, 80, 82, 0, 0, 0, 8]

/-- The lookup loop finishes on this name and file within some fuel
(the claimed termination property for one concrete input). -/
def chainWalkTerminates (nm file : List Nat) : Prop :=
  ∃ fuel, openZipFileF nm file fuel ≠ none

theorem cycFile_walk (fuel : Nat) :
    chainWalkF cycFile [65, 0] fuel [90, 73] 0 = none
      ∧ chainWalkF cycFile [65, 0] fuel [90, 73] 8 = none := by
  induction fuel with
  | zero => exact ⟨rfl, rfl⟩
  | succ f ih =>
    constructor
    · have hstep : chainStep cycFile [65, 0] [90, 73] 0 = .next [90, 73] 8 := by decide
      simp only [chainWalkF, hstep]
      exact ih.2
    · have hstep : chainStep cycFile [65, 0] [90, 73] 8 = .next [90, 73] 0 := by decide
      simp only [chainWalkF, hstep]
      exact ih.1

theorem cycFile_walk_init (fuel : Nat) :
    chainWalkF cycFile [65, 0] fuel [0, 0] 16 = none := by
  cases fuel with
  | zero => rfl
  | succ f =>
    have hstep : chainStep cycFile [65, 0] [0, 0] 16 = .next [90, 73] 0 := by decide
    simp only [chainWalkF, hstep]
    exact (cycFile_walk f).1

theorem openZipFileF_none_of_walk (nm file : List Nat) (fuel : Nat)
    (h8 : 8 ≤ file.length)
    (hw : chainWalkF file (nm ++ [0]) fuel (List.replicate (nm.length + 1) 0)
      (file.length - 8) = none) :
    openZipFileF nm file fuel = none := by
  simp only [openZipFileF, if_pos h8, hw]

/--
Counterexample to C5 as stated: on the crafted cyclic file the lookup
loop never terminates — no amount of fuel makes `openZipFileF` finish,
because the walk revisits the same (buffer, trailer-position) state
forever.
-/
theorem chain_walk_cyclic_counterexample : chainWalkTerminates [65] cycFile = False := by
  refine eq_false ?_
  rintro ⟨fuel, hf⟩
  exact hf (openZipFileF_none_of_walk [65] cycFile fuel (by decide) (cycFile_walk_init fuel))

/-! ### Claim C7: reader error behaviour -/

theorem findBlock_none (nm exe : List Nat) (blocks : List Block)
    (h : ∀ blk ∈ blocks, blk.nm ≠ nm) : findBlock nm exe blocks = none := by
  induction blocks with
  | nil => rfl
  | cons b rest ih =>
    simp only [findBlock, if_neg (h b (List.mem_cons_self b rest))]
    exact ih (fun blk hm => h blk (List.mem_cons_of_mem b hm))

/--
C7 (confirmed).  openZipFile returns not-found (nil) both when no
stored block name matches the lookup key (first conjunct: a
well-formed file none of whose block names equals the name) and when an
I/O or decode step fails: a file too short for the initial seek (second
conjunct), a missing ZIPR tag at the chain head (third conjunct), and
an archive the decoder rejects (fourth conjunct).  In the embedding the
function is a pure function of the file bytes returning an Option — it
has no hard-error outcome and cannot modify the file it reads.
-/
theorem openZipFile_not_found_behaviour :
    (∀ (exe nm : List Nat) (blocks : List Block),
        hasZipData exe = false → (0 : Nat) ∉ nm →
        (buildFile exe blocks).length < 2 ^ 31 →
        (∀ blk ∈ blocks, (0 : Nat) ∉ blk.nm) →
        (∀ blk ∈ blocks, blk.nm ≠ nm) →
        openZipFileF nm (buildFile exe blocks) (blocks.length + 1) = some none)
      ∧ (∀ (nm file : List Nat) (fuel : Nat), file.length < 8 →
        openZipFileF nm file fuel = some none)
      ∧ (∀ (nm file : List Nat) (fuel : Nat), 8 ≤ file.length →
        readBytes file (file.length - 8) 4 ≠ ziprTag →
        openZipFileF nm file (fuel + 1) = some none)
      ∧ (∀ (A nm Z : List Nat) (fuel : Nat), A.length < 2 ^ 31 → zipDecode Z = none →
        openZipFileF nm (appendBlock A nm Z) (fuel + 1) = some none) := by
  refine ⟨?_, ?_, ?_, ?_⟩
  · intro exe nm blocks hguard hnm hlen hbs hnone
    by_cases h8 : 8 ≤ (buildFile exe blocks).length
    · have h := chainWalk_findBlock exe nm hguard hnm blocks hlen hbs []
        (List.replicate (nm.length + 1) 0) (by simp) h8
      rw [List.append_nil] at h
      simp only [openZipFileF, if_pos h8, h, findBlock_none nm exe blocks hnone]
    · simp [openZipFileF, if_neg h8]
  · intro nm file fuel hshort
    simp only [openZipFileF]
    rw [if_neg (by omega : ¬ 8 ≤ file.length)]
  · intro nm file fuel h8 htagne
    have hstep : chainStep file (nm ++ [0]) (List.replicate (nm.length + 1) 0)
        (file.length - 8) = .done none := by
      simp only [chainStep]
      rw [if_pos (by omega), if_neg htagne]
    simp only [openZipFileF, if_pos h8, chainWalkF, hstep]
  · intro A nm Z fuel hlen hdec
    rw [openZipFile_top_match A nm Z hlen fuel, hdec]

/-- Witness for C7 at concrete inputs: a two-block file without the
requested name, a 3-byte file, a file with a corrupt chain head, and a
block whose archive bytes the decoder rejects. -/
theorem openZipFile_not_found_witness :
    openZipFileF [65] (buildFile [1, 1, 1, 1, 1, 1, 1, 1] [⟨[66], [5]⟩, ⟨[67], [6]⟩]) 3
        = some none
      ∧ openZipFileF [65] [1, 2, 3] 7 = some none
      ∧ openZipFileF [65] [1, 2, 3, 4, 5, 6, 7, 8, 9] 4 = some none
      ∧ openZipFileF [65] (appendBlock [2, 2, 2, 2, 2, 2, 2, 2] [65] [9]) 1 = some none :=
  ⟨openZipFile_not_found_behaviour.1 [1, 1, 1, 1, 1, 1, 1, 1] [65] [⟨[66], [5]⟩, ⟨[67], [6]⟩]
      (by decide) (by decide) (by decide) (by decide) (by decide),
    openZipFile_not_found_behaviour.2.1 [65] [1, 2, 3] 7 (by decide),
    openZipFile_not_found_behaviour.2.2.1 [65] [1, 2, 3, 4, 5, 6, 7, 8, 9] 3 (by decide)
      (by decide),
    openZipFile_not_found_behaviour.2.2.2 [2, 2, 2, 2, 2, 2, 2, 2] [65] [9] 0 (by decide)
      (by decide)⟩
